import Mathlib

/-!
Shallow embedding of the ElectroSolve core (units, impedance algebra,
component model, circuit graph, reduction engine) and verification of the
specification claims against it.

Modelling conventions:
* Rust `f64` values are embedded as exact rationals `ℚ`; `Complex64` as a
  pair of rationals `Cx`.  None of the verified claims hinges on rounding.
  Non-finite floats (inf/NaN) are not representable in `ℚ`; the
  `is_finite` checks of the source are therefore vacuously true in the
  embedding (noted where it matters).
* `num_complex` division is embedded as exact complex division, with the
  Lean convention `inv 0 = 0` replacing the IEEE `inf`/`NaN` results.  The
  places where the source can divide by zero are noted in comments; in all
  of them both the IEEE result and the `0` convention flow into the same
  downstream branch (a failed `Resistance::known`).
* Fallible Rust functions returning `Result<T, E>` are embedded as
  `Except E T`.
-/

/-- Embedding of `num_complex::Complex64`: a complex number with rational
real and imaginary parts. -/
structure Cx where
  re : ℚ
  im : ℚ
deriving DecidableEq, Repr

instance : Add Cx := ⟨fun a b => ⟨a.re + b.re, a.im + b.im⟩⟩

instance : Neg Cx := ⟨fun a => ⟨-a.re, -a.im⟩⟩

instance : Mul Cx := ⟨fun a b => ⟨a.re * b.re - a.im * b.im, a.re * b.im + a.im * b.re⟩⟩

instance : Zero Cx := ⟨⟨0, 0⟩⟩

instance : One Cx := ⟨⟨1, 0⟩⟩

/-- Complex inverse, via the conjugate over the squared norm; `invCx 0 = 0`
(the Rust source produces IEEE infinities there, see the file comment). -/
def invCx (z : Cx) : Cx :=
  let n := z.re * z.re + z.im * z.im
  ⟨z.re / n, -z.im / n⟩

instance : Inv Cx := ⟨invCx⟩

instance : Div Cx := ⟨fun a b => a * b⁻¹⟩

theorem Cx.add_def (a b : Cx) : a + b = ⟨a.re + b.re, a.im + b.im⟩ := rfl

theorem Cx.add_comm (a b : Cx) : a + b = b + a := by
  simp only [Cx.add_def, Cx.mk.injEq]
  constructor <;> ring

theorem Cx.zero_def : (0 : Cx) = ⟨0, 0⟩ := rfl

theorem Cx.eq_iff (a b : Cx) : a = b ↔ a.re = b.re ∧ a.im = b.im := by
  constructor
  · rintro rfl; exact ⟨rfl, rfl⟩
  · rintro ⟨h1, h2⟩; cases a; cases b; simp_all

/-- Embedding of `errors.rs` `CircuitError` (payloads as rationals). -/
inductive CircuitError where
  | InvalidAngularFrequency : ℚ → CircuitError
  | InvalidResistance : ℚ → CircuitError
  | InvalidInductance : ℚ → CircuitError
  | InvalidCapacitance : ℚ → CircuitError
  | InvalidImpedance : Cx → CircuitError
deriving DecidableEq, Repr

/-- Embedding of `units.rs` `Value<T>`. -/
inductive Value (T : Type) where
  | Known : T → Value T
  | Unknown : String → Value T
deriving DecidableEq, Repr

def Value.is_known {T : Type} : Value T → Bool
  | .Known _ => true
  | .Unknown _ => false

def Value.is_unknown {T : Type} (v : Value T) : Bool := !v.is_known

/-- Embedding of `units.rs` `AngularFrequency` (a wrapped rational; the
positivity/finiteness property is what claim C10 is about, so the wrapper
itself carries no proof). -/
structure AngularFrequency where
  omega : ℚ
deriving DecidableEq, Repr

/-- `AngularFrequency::new`: validates `omega >= 0.0 && omega.is_finite()`
(finiteness is vacuous over `ℚ`). -/
def AngularFrequency.new (omega : ℚ) : Except CircuitError AngularFrequency :=
  if 0 ≤ omega then .ok ⟨omega⟩ else .error (.InvalidAngularFrequency omega)

/-- The exact rational value of `std::f64::consts::PI` (the IEEE-754 double
nearest to π). -/
def pi_f64 : ℚ := 884279719003555 / 281474976710656

/-- `AngularFrequency::hz`: `Self(2.0 * PI * freq)`, with no validation.
`2.0 * PI` is exact in `f64`; the final product is embedded exactly (the
claims about `hz` do not depend on its rounding). -/
def AngularFrequency.hz (freq : ℚ) : AngularFrequency :=
  ⟨2 * pi_f64 * freq⟩

/-- Embedding of `units.rs` `Resistance`. -/
structure Resistance where
  val : Value ℚ
deriving DecidableEq, Repr

/-- `Resistance::known`: validates `r > 0.0 && r.is_finite()` (finiteness
vacuous over `ℚ`). -/
def Resistance.known (r : ℚ) : Except CircuitError Resistance :=
  if 0 < r then .ok ⟨.Known r⟩ else .error (.InvalidResistance r)

def Resistance.toOption (r : Resistance) : Option ℚ :=
  match r.val with
  | .Known v => some v
  | .Unknown _ => none

/-- Embedding of `units.rs` `Inductance`. -/
structure Inductance where
  val : Value ℚ
deriving DecidableEq, Repr

def Inductance.known (l : ℚ) : Except CircuitError Inductance :=
  if 0 < l then .ok ⟨.Known l⟩ else .error (.InvalidInductance l)

def Inductance.toOption (l : Inductance) : Option ℚ :=
  match l.val with
  | .Known v => some v
  | .Unknown _ => none

/-- Embedding of `units.rs` `Capacitance`. -/
structure Capacitance where
  val : Value ℚ
deriving DecidableEq, Repr

def Capacitance.known (c : ℚ) : Except CircuitError Capacitance :=
  if 0 < c then .ok ⟨.Known c⟩ else .error (.InvalidCapacitance c)

def Capacitance.toOption (c : Capacitance) : Option ℚ :=
  match c.val with
  | .Known v => some v
  | .Unknown _ => none

/-- Embedding of `units.rs` `Voltage` (a complex phasor). -/
structure Voltage where
  val : Cx
deriving DecidableEq, Repr

def Voltage.dc (volts : ℚ) : Voltage := ⟨⟨volts, 0⟩⟩

/-- Embedding of `units.rs` `Current` (a complex phasor). -/
structure Current where
  val : Cx
deriving DecidableEq, Repr

def Current.dc (amps : ℚ) : Current := ⟨⟨amps, 0⟩⟩

/-- Embedding of `units.rs` `ImpedanceResult`. -/
inductive ImpedanceResult where
  | Finite : Cx → ImpedanceResult
  | Open : ImpedanceResult
  | Short : ImpedanceResult
deriving DecidableEq, Repr

def ImpedanceResult.is_finite : ImpedanceResult → Bool
  | .Finite _ => true
  | _ => false

def ImpedanceResult.is_open : ImpedanceResult → Bool
  | .Open => true
  | _ => false

def ImpedanceResult.is_short : ImpedanceResult → Bool
  | .Short => true
  | _ => false

/-- Modelled from the spec: `ImpedanceResult::new_finite` is referenced by
`component.rs` and the test suites but its definition is not under `src/`.
The spec's DC-limit table (inductor at ω = 0 → `Short`) together with the
test `prop_dc_limits` (which asserts `matches!(l_z, ImpedanceResult::Short)`
at ω = 0, where `impedance` computes `new_finite(0 + j·0)`) force the
constructor to fold an exact complex zero to `Short` and wrap every other
argument as `Finite`. -/
def ImpedanceResult.new_finite (z : Cx) : ImpedanceResult :=
  if z = 0 then .Short else .Finite z

/-- Embedding of `units.rs` `combine_series`. -/
def combine_series (z1 z2 : ImpedanceResult) : ImpedanceResult :=
  match z1, z2 with
  | .Open, _ => .Open
  | _, .Open => .Open
  | .Finite z1v, .Short => .Finite z1v
  | .Short, .Finite z2v => .Finite z2v
  | .Short, .Short => .Short
  | .Finite z1v, .Finite z2v => .Finite (z1v + z2v)

/-- Embedding of `units.rs` `combine_parallel`. -/
def combine_parallel (z1 z2 : ImpedanceResult) : ImpedanceResult :=
  match z1, z2 with
  | .Short, _ => .Short
  | _, .Short => .Short
  | .Finite z1v, .Open => .Finite z1v
  | .Open, .Finite z2v => .Finite z2v
  | .Open, .Open => .Open
  | .Finite z1v, .Finite z2v => .Finite (1 / (1 / z1v + 1 / z2v))

/-- Embedding of `units.rs` `combine_parallel_many`. -/
def combine_parallel_many (impedances : List ImpedanceResult) : ImpedanceResult :=
  if impedances.any (·.is_short) then .Short
  else
    let finite_vals := impedances.filterMap (fun z => match z with
      | .Finite v => some v
      | _ => none)
    if finite_vals.isEmpty then .Open
    else .Finite (1 / (finite_vals.map (fun z => (1 : Cx) / z)).sum)

/-- Embedding of `units.rs` `combine_series_many`.  Note that when every
element is `Short` the `finite_vals.is_empty()` branch returns `Open`
(the comment in the source believes that branch is only reachable by
all-`Open` inputs, which the first check already rules out). -/
def combine_series_many (impedances : List ImpedanceResult) : ImpedanceResult :=
  if impedances.any (·.is_open) then .Open
  else
    let finite_vals := impedances.filterMap (fun z => match z with
      | .Finite v => some v
      | _ => none)
    if finite_vals.isEmpty then .Open
    else .Finite finite_vals.sum

/-- The `1e-12` epsilon used by `component.rs` (`impedance` and
`impedance_to_kind`). -/
def epsTiny : ℚ := 1 / 1000000000000

/-- Embedding of `component.rs` `ComponentKind`. -/
inductive ComponentKind where
  | Resistor : Resistance → ComponentKind
  | Inductor : Inductance → ComponentKind
  | Capacitor : Capacitance → ComponentKind
  | Impedance : ImpedanceResult → ComponentKind
  | VoltageSource : Voltage → ComponentKind
  | CurrentSource : Current → ComponentKind
deriving DecidableEq, Repr

/-- Embedding of `ComponentKind::impedance` from `component.rs`. -/
def ComponentKind.impedance (kind : ComponentKind) (omega : AngularFrequency) :
    ImpedanceResult :=
  match kind with
  | .Resistor r =>
      match r.toOption with
      | some rv => ImpedanceResult.new_finite ⟨rv, 0⟩
      | none => .Open
  | .Inductor l =>
      match l.toOption with
      | some lv => ImpedanceResult.new_finite ⟨0, omega.omega * lv⟩
      | none => .Open
  | .Capacitor c =>
      match c.toOption with
      | some cv =>
          if omega.omega < epsTiny then .Open
          else ImpedanceResult.new_finite ⟨0, -1 / (omega.omega * cv)⟩
      | none => .Open
  | .Impedance z => z
  | .VoltageSource _ => .Short
  | .CurrentSource _ => .Short

/-- Embedding of `ComponentKind::is_passive` from `component.rs`. -/
def ComponentKind.is_passive : ComponentKind → Bool
  | .Resistor _ => true
  | .Inductor _ => true
  | .Capacitor _ => true
  | .Impedance z => z.is_finite
  | .VoltageSource _ => false
  | .CurrentSource _ => false

def ComponentKind.is_source : ComponentKind → Bool
  | .VoltageSource _ => true
  | .CurrentSource _ => true
  | _ => false

/-- Embedding of `impedance_to_kind` from `component.rs`. -/
def impedance_to_kind (z : ImpedanceResult) : Except CircuitError ComponentKind :=
  match z with
  | .Finite zv =>
      if |zv.im| < epsTiny then
        (Resistance.known zv.re).map (fun r => .Resistor r)
      else
        .ok (.Impedance (ImpedanceResult.new_finite zv))
  | .Open => .ok (.Impedance .Open)
  | .Short => .ok (.Impedance .Short)

/-- Embedding of `graph.rs` `Node`.  The current `graph.rs` `Node` holds
only `id`; `reduce.rs` additionally reads and writes a `degree` field which
belongs to the (absent) snapshot of the graph module it was written
against.  Modelled from the spec: `node_degree(n)` is the count of incident
active components, so `add_component` increments the field for both
endpoints and the reducer decrements it when deactivating (as the visible
`apply_reduction` does).  The field is embedded as `ℤ` (a Rust `usize`
underflow would panic; no verified claim depends on the field's value). -/
structure Node where
  id : String
  degree : ℤ
deriving DecidableEq, Repr

/-- Embedding of `graph.rs` `CircuitComponent` (with the `cached_impedance`
type of the current `graph.rs`: `Option<ImpedanceResult>`). -/
structure CircuitComponent where
  id : String
  kind : ComponentKind
  nodes : Nat × Nat
  is_active : Bool
  cached_impedance : Option ImpedanceResult
deriving DecidableEq, Repr

/-- Embedding of `graph.rs` `CircuitGraph`. -/
structure CircuitGraph where
  nodes : List Node
  components : List CircuitComponent
  ground : Option Nat
  adjacency : List (List Nat)
deriving DecidableEq, Repr

def CircuitGraph.empty : CircuitGraph := ⟨[], [], none, []⟩

/-- Embedding of `CircuitGraph::add_node` (degree initialised to 0,
matching a node with no incident components). -/
def CircuitGraph.add_node (g : CircuitGraph) (id : String) : CircuitGraph × Nat :=
  (⟨g.nodes ++ [⟨id, 0⟩], g.components, g.ground, g.adjacency ++ [[]]⟩, g.nodes.length)

/-- Increment the stored degree of node `n` (helper for `add_component`). -/
def CircuitGraph.bumpDegree (g : CircuitGraph) (n : Nat) (d : ℤ) : CircuitGraph :=
  { g with nodes := g.nodes.modify (fun nd => { nd with degree := nd.degree + d }) n }

/-- Embedding of `CircuitGraph::add_component`: appends the component
(active, no cached impedance), records it in the adjacency lists of both
endpoints, and maintains the spec-modelled degree field. -/
def CircuitGraph.add_component (g : CircuitGraph) (id : String) (kind : ComponentKind)
    (nodes : Nat × Nat) : CircuitGraph × Nat :=
  let idx := g.components.length
  let g1 : CircuitGraph :=
    { g with
      components := g.components ++ [⟨id, kind, nodes, true, none⟩]
      adjacency := (g.adjacency.modify (fun l => l ++ [idx]) nodes.1).modify
        (fun l => l ++ [idx]) nodes.2 }
  ((g1.bumpDegree nodes.1 1).bumpDegree nodes.2 1, idx)

/-- Component lookup (`graph.components[i]`), total with an inert default. -/
def CircuitGraph.comp? (g : CircuitGraph) (i : Nat) : Option CircuitComponent :=
  g.components.get? i

/-- Adjacency row lookup, total with `[]` default. -/
def CircuitGraph.adjAt (g : CircuitGraph) (n : Nat) : List Nat :=
  (g.adjacency.get? n).getD []

/-- Embedding of `CircuitGraph::connections_at`: incident component indices
filtered to the active ones. -/
def CircuitGraph.connections_at (g : CircuitGraph) (n : Nat) : List Nat :=
  (g.adjAt n).filter (fun i => ((g.comp? i).map (·.is_active)).getD false)

/-- Embedding of `CircuitGraph::get_node_degree`. -/
def CircuitGraph.get_node_degree (g : CircuitGraph) (n : Nat) : Nat :=
  (g.connections_at n).length

/-- Embedding of `CircuitGraph::active_component_count`. -/
def CircuitGraph.active_component_count (g : CircuitGraph) : Nat :=
  (g.components.filter (·.is_active)).length

/-- Embedding of `CircuitGraph::cache_impedances`: every active component
gets `cached_impedance = Some(kind.impedance(omega))`; inactive components
are left untouched. -/
def CircuitGraph.cache_impedances (g : CircuitGraph) (omega : AngularFrequency) :
    CircuitGraph :=
  { g with
    components := g.components.map (fun c =>
      if c.is_active then { c with cached_impedance := some (c.kind.impedance omega) }
      else c) }

/-- Embedding of `CircuitGraph::set_ground`. -/
def CircuitGraph.set_ground (g : CircuitGraph) (n : Nat) : CircuitGraph :=
  { g with ground := some n }

/-- Embedding of `CircuitGraph::is_ground`. -/
def CircuitGraph.is_ground (g : CircuitGraph) (n : Nat) : Bool :=
  match g.ground with
  | some m => m == n
  | none => false

/-- Embedding of `reduce.rs` `ReductionStep`. -/
inductive ReductionStep where
  | Series : List Nat → Nat → Cx → ReductionStep
  | Parallel : List Nat → Nat → Cx → ReductionStep
  | DeltaWye : (Nat × Nat × Nat) → Nat → ReductionStep
deriving DecidableEq, Repr

def ReductionStep.components : ReductionStep → List Nat
  | .Series cs _ _ => cs
  | .Parallel cs _ _ => cs
  | .DeltaWye _ _ => []

def ReductionStep.impedance : ReductionStep → Cx
  | .Series _ _ z => z
  | .Parallel _ _ z => z
  | .DeltaWye _ _ => 0

/-- Modelled from the spec: `reduce.rs` reads `cached_impedance` as a plain
`Complex64` (an older snapshot of the graph module, not under `src/`),
while the `graph.rs` under `src/` stores `Option<ImpedanceResult>`.  The
bridge follows the spec's glossary (`Short` ≡ 0 Ω); an absent cache reads
as 0 (the un-cached default of that older snapshot), and `Open` — which the
old `Complex64` representation could not express and no verified claim
exercises — reads as an arbitrary huge nonzero real. -/
def cachedC (c : CircuitComponent) : Cx :=
  match c.cached_impedance with
  | some (.Finite z) => z
  | some .Short => 0
  | some .Open => ⟨10 ^ 300, 0⟩
  | none => 0

/-- The loop body of `find_series_reduction` at one node: degree check,
active-connection check (the source checks `connected.len() != 2` and then
indexes elements 0 and 1, embedded as a two-element pattern match),
passivity check, nonzero-cached-impedance check, then the `Series` step
with the summed impedance (and `equivalent = 0`). -/
def seriesCheckAt (g : CircuitGraph) (node_idx : Nat) : Option ReductionStep :=
  let degree := ((g.nodes.get? node_idx).map (·.degree)).getD 0
  if degree ≠ 2 then none
  else
    match g.connections_at node_idx with
    | [comp1_idx, comp2_idx] =>
        match g.comp? comp1_idx, g.comp? comp2_idx with
        | some comp1, some comp2 =>
            if ¬ comp1.kind.is_passive ∨ ¬ comp2.kind.is_passive then none
            else if cachedC comp1 = 0 ∨ cachedC comp2 = 0 then none
            else some (.Series [comp1_idx, comp2_idx] 0 (cachedC comp1 + cachedC comp2))
        | _, _ => none
    | _ => none

/-- The ascending scan of `find_series_reduction`, starting at node `n`
with `remaining` nodes left to visit, returning at the first success (the
Rust `for` loop with early `return`). -/
def findSeriesAux (g : CircuitGraph) : Nat → Nat → Option ReductionStep
  | _, 0 => none
  | n, remaining + 1 =>
      match seriesCheckAt g n with
      | some s => some s
      | none => findSeriesAux g (n + 1) remaining

/-- Embedding of `find_series_reduction` from `reduce.rs`: scan the nodes in
ascending index order and return the step found at the first node passing
all checks. -/
def find_series_reduction (g : CircuitGraph) : Option ReductionStep :=
  findSeriesAux g 0 g.nodes.length

/-- The normalised (unordered) endpoint key used by
`find_parallel_reduction` to group parallel candidates. -/
def normKey (c : CircuitComponent) : Nat × Nat :=
  if c.nodes.1 < c.nodes.2 then c.nodes else (c.nodes.2, c.nodes.1)

/-- Whether component index `i` of `g` is an active passive component (the
filter of `find_parallel_reduction`). -/
def activePassiveAt (g : CircuitGraph) (i : Nat) : Bool :=
  match g.comp? i with
  | some c => c.is_active && c.kind.is_passive
  | none => false

/-- The members of the parallel class of key `k`: the active passive
component indices with that normalised endpoint pair, in ascending index
order (the order in which the Rust loop pushes them). -/
def classMembers (g : CircuitGraph) (k : Nat × Nat) : List Nat :=
  (List.range g.components.length).filter
    (fun i => activePassiveAt g i && ((g.comp? i).map (fun c => normKey c == k)).getD false)

/-- The distinct normalised keys of active passive components, in order of
first appearance.  (`reduce.rs` stores the classes in a `HashMap`, whose
iteration order is unspecified; the embedding fixes first-appearance
order.) -/
def classKeys (g : CircuitGraph) : List (Nat × Nat) :=
  (((List.range g.components.length).filter (activePassiveAt g)).filterMap
    (fun i => (g.comp? i).map normKey)).dedup

/-- Embedding of `find_parallel_reduction` from `reduce.rs`: among the
endpoint classes with more than one member, pick one of maximal size
(`max_by_key`; ties are unspecified in the source because of `HashMap`
order — the embedding takes the first-appearing maximal class), sum the
admittances of its members skipping exact-zero cached impedances, and emit
a `Parallel` step with `1 / admittance_sum`.  When every member is skipped
the sum is 0 and the source divides by zero (IEEE infinity); the embedding
yields `invCx 0 = 0`, and both values make the later
`impedance_to_kind` call fail `Resistance::known`. -/
def find_parallel_reduction (g : CircuitGraph) : Option ReductionStep :=
  let big := (classKeys g).filter (fun k => 1 < (classMembers g k).length)
  match big with
  | [] => none
  | k0 :: rest =>
      let best := rest.foldl
        (fun acc k => if (classMembers g acc).length < (classMembers g k).length then k else acc)
        k0
      let members := classMembers g best
      let admittance_sum := members.foldl
        (fun acc i =>
          let z := ((g.comp? i).map cachedC).getD 0
          if z = 0 then acc else acc + 1 / z)
        0
      some (.Parallel members 0 (1 / admittance_sum))

/-- Deactivate one component (`is_active := false`) and decrement the
spec-modelled degree field of both its endpoints, as the deactivation loop
of `apply_reduction` does. -/
def deactivateComp (g : CircuitGraph) (i : Nat) : CircuitGraph :=
  match g.comp? i with
  | none => g
  | some c =>
      let g1 : CircuitGraph :=
        { g with components := g.components.set i { c with is_active := false } }
      (g1.bumpDegree c.nodes.1 (-1)).bumpDegree c.nodes.2 (-1)

/-- The middle/outer endpoint computation of the `Series` arm of
`apply_reduction`: the middle is the endpoint of `c1` shared with `c2`
(falling back to `c1.nodes.1` when none is shared), the outers are the
remaining endpoints. -/
def seriesOuter (c1 c2 : CircuitComponent) : Nat × Nat :=
  let middle := if c1.nodes.1 = c2.nodes.1 ∨ c1.nodes.1 = c2.nodes.2
    then c1.nodes.1 else c1.nodes.2
  (if c1.nodes.1 ≠ middle then c1.nodes.1 else c1.nodes.2,
   if c2.nodes.1 ≠ middle then c2.nodes.1 else c2.nodes.2)

theorem ite_eq_or {α : Type} (c : Prop) [inst : Decidable c] (x y : α) :
    (if c then x else y) = x ∨ (if c then x else y) = y := by
  split <;> simp

theorem seriesOuter_mem (c1 c2 : CircuitComponent) :
    ((seriesOuter c1 c2).1 = c1.nodes.1 ∨ (seriesOuter c1 c2).1 = c1.nodes.2) ∧
    ((seriesOuter c1 c2).2 = c2.nodes.1 ∨ (seriesOuter c1 c2).2 = c2.nodes.2) := by
  exact ⟨ite_eq_or _ _ _, ite_eq_or _ _ _⟩

/-- Embedding of the `Series` arm of `apply_reduction` from `reduce.rs`:
derive the middle and outer nodes from the two components
(`seriesOuter`), deactivate the members, convert the summed impedance to a
kind (`impedance_to_kind`; the `Complex64` argument of the source is
bridged to `Finite`), and append the equivalent component between the
outer nodes.  On a conversion error the members stay deactivated and no
equivalent is added (`?` in the source), and the step keeps
`equivalent = 0`; `reduce` discards the `Result`. -/
def applySeries (g : CircuitGraph) (components : List Nat) (impedance : Cx) :
    CircuitGraph × ReductionStep :=
  let c1 := ((g.comp? (components.getD 0 0)).getD ⟨"", .Impedance .Open, (0, 0), false, none⟩)
  let c2 := ((g.comp? (components.getD 1 0)).getD ⟨"", .Impedance .Open, (0, 0), false, none⟩)
  let g1 := components.foldl deactivateComp g
  match impedance_to_kind (.Finite impedance) with
  | .error _ => (g1, .Series components 0 impedance)
  | .ok kind =>
      let (g2, idx) := g1.add_component "EQ" kind (seriesOuter c1 c2)
      (g2, .Series components idx impedance)

/-- Embedding of the `Parallel` arm of `apply_reduction` from `reduce.rs`:
the equivalent keeps the (unnormalised) endpoint pair of the first member;
otherwise as the series arm. -/
def applyParallel (g : CircuitGraph) (components : List Nat) (impedance : Cx) :
    CircuitGraph × ReductionStep :=
  let c0 := ((g.comp? (components.getD 0 0)).getD ⟨"", .Impedance .Open, (0, 0), false, none⟩)
  let nodes := c0.nodes
  let g1 := components.foldl deactivateComp g
  match impedance_to_kind (.Finite impedance) with
  | .error _ => (g1, .Parallel components 0 impedance)
  | .ok kind =>
      let (g2, idx) := g1.add_component "EQ" kind nodes
      (g2, .Parallel components idx impedance)

/-- Embedding of `apply_reduction` from `reduce.rs` (the `DeltaWye` arm
panics in the source and is never produced by the discovery functions; the
embedding leaves the graph unchanged there). -/
def apply_reduction (g : CircuitGraph) (step : ReductionStep) :
    CircuitGraph × ReductionStep :=
  match step with
  | .Series components _ impedance => applySeries g components impedance
  | .Parallel components _ impedance => applyParallel g components impedance
  | .DeltaWye d w => (g, .DeltaWye d w)

/-- The fixed-point loop of `reduce` from `reduce.rs`, with explicit fuel:
try a series reduction, else a parallel reduction, else stop.  Claim C3
shows the result is fuel-independent once the fuel reaches the initial
active-passive component count. -/
def reduceLoop (g : CircuitGraph) : Nat → List ReductionStep × CircuitGraph
  | 0 => ([], g)
  | fuel + 1 =>
      match find_series_reduction g with
      | some step =>
          let (g1, step1) := apply_reduction g step
          let (steps, g2) := reduceLoop g1 fuel
          (step1 :: steps, g2)
      | none =>
          match find_parallel_reduction g with
          | some step =>
              let (g1, step1) := apply_reduction g step
              let (steps, g2) := reduceLoop g1 fuel
              (step1 :: steps, g2)
          | none => ([], g)

/-- Embedding of `reduce` from `reduce.rs`: cache the impedances at ω, then
iterate the rewrite loop.  The source's return type is
`Result<Vec<ReductionStep>, CircuitError>` but it always returns `Ok` (the
`apply_reduction` results are discarded), so the embedding returns the pair
directly. -/
def reduce (g : CircuitGraph) (omega : AngularFrequency) (fuel : Nat) :
    List ReductionStep × CircuitGraph :=
  reduceLoop (g.cache_impedances omega) fuel

/-! ### Concrete circuits used by the claims -/

/-- Two nodes with two 100 Ω resistors in parallel between them: the
scenario of the spec's `Parallel bank R=100, R=100 between n0,n1` and of
the tests `prop_parallel_bank_reduces_to_harmonic_mean` and
`prop_reduction_never_creates_self_loops`.  It satisfies every graph
invariant of the spec. -/
def gPar : CircuitGraph :=
  (((((CircuitGraph.empty.add_node "n0").1.add_node "n1").1.add_component
    "R0" (.Resistor ⟨.Known 100⟩) (0, 1)).1).add_component
    "R1" (.Resistor ⟨.Known 100⟩) (0, 1)).1

/-- Three nodes in a chain `n0 —R0— n1 —R1— n2` with the middle node marked
as ground. -/
def gGnd : CircuitGraph :=
  (((((((CircuitGraph.empty.add_node "n0").1.add_node "n1").1.add_node "n2").1.add_component
    "R0" (.Resistor ⟨.Known 100⟩) (0, 1)).1.add_component
    "R1" (.Resistor ⟨.Known 100⟩) (1, 2)).1).set_ground 1)

/-- The angular frequency `ω = 100 rad/s` used by the concrete runs. -/
def omega100 : AngularFrequency := ⟨100⟩

/-! ### Claim C1 -/

/-- C1: the claim states that after `reduce` no active component is a
self-loop.  The code violates it: on `gPar` (two 100 Ω resistors in
parallel, all invariants satisfied) `find_series_reduction` fires at node
0 — the two "series" components share both endpoints — and
`apply_reduction` materialises the equivalent with both endpoints equal to
node 1.  After `reduce` returns, the single active component is a
self-loop at node 1. -/
theorem C1_reduce_creates_self_loop :
    ((reduce gPar omega100 5).2.components.filter (·.is_active)).map (fun c => c.nodes)
      = [(1, 1)] := by with_unfolding_all decide

/-! ### Claim C2 -/

/-- C2: the claim states that a parallel bank of n ≥ 2 resistors reduces to
a single equivalent of impedance `Finite(1/Σ(1/Rᵢ))`, in particular two
100 Ω resistors give `Finite(50)`.  The code violates it at n = 2: the
series scanner fires first (node 0 has degree 2) and sums the two parallel
resistors, leaving a single equivalent of 200 Ω — not 50 Ω — between
(1, 1). -/
theorem C2_parallel_bank_mis_reduced :
    (reduce gPar omega100 5).1 = [.Series [0, 1] 2 ⟨200, 0⟩] ∧
    ((reduce gPar omega100 5).2.components.filter (·.is_active)).map (fun c => c.kind)
      = [.Resistor ⟨.Known 200⟩] ∧
    (ComponentKind.Resistor ⟨.Known 200⟩).impedance omega100 = .Finite ⟨200, 0⟩ ∧
    ImpedanceResult.Finite ⟨200, 0⟩ ≠ .Finite ⟨50, 0⟩ := by with_unfolding_all decide

/-! ### Claim C4, counterexample -/

/-- C4, counterexample: the claim states a node is a series pivot only if
it is not the ground node.  In `gGnd` the ground node 1 has degree 2 with
two passive incident resistors; the scan rejects node 0 and selects node 1
— the ground — as the series pivot. -/
theorem C4_series_pivot_at_ground :
    gGnd.ground = some 1 ∧
    seriesCheckAt (gGnd.cache_impedances omega100) 0 = none ∧
    seriesCheckAt (gGnd.cache_impedances omega100) 1
      = some (.Series [0, 1] 0 ⟨200, 0⟩) ∧
    find_series_reduction (gGnd.cache_impedances omega100)
      = some (.Series [0, 1] 0 ⟨200, 0⟩) := by with_unfolding_all decide

/-! ### Claim C6 -/

/-- C6: the claim (and the source's own test `series_many_all_short`)
states that `combine_series_many` of a list of `Short`s is `Short`; the
code returns `Open` from the `finite_vals.is_empty()` branch. -/
theorem C6_series_many_all_short_is_open :
    combine_series_many (List.replicate 5 .Short) = .Open ∧
    ImpedanceResult.Open ≠ .Short := by decide

/-! ### Claim C7, counterexample -/

/-- C7, counterexample: the claim states the conversion fails exactly for a
finite impedance with negative real part and zero imaginary part.  At
`z = 0 + 0j` the real part is not negative, so the claim predicts a
successful generic-`Impedance` conversion, but the code fails
`Resistance::known(0)` and returns a rewrite error. -/
theorem C7_zero_impedance_conversion_errs :
    impedance_to_kind (.Finite ⟨0, 0⟩) = .error (.InvalidResistance 0) ∧
    ¬((Cx.mk 0 0).re < 0 ∧ (Cx.mk 0 0).im = 0) := by
  refine ⟨by with_unfolding_all rfl, by with_unfolding_all decide⟩

/-! ### Claim C9, counterexample -/

/-- C9, counterexample: the claim states that after `cache_impedances`
every inactive component has no cached value.  After a `reduce` run on
`gGnd`, component 0 is inactive but keeps its cached impedance, and a
subsequent `cache_impedances` leaves it cached (`Some(Finite(100))`), not
`None`. -/
theorem C9_inactive_component_keeps_cache :
    (((reduce gGnd omega100 9).2.cache_impedances omega100).comp? 0).map
        (fun c => (c.is_active, c.cached_impedance))
      = some (false, some (.Finite ⟨100, 0⟩)) := by with_unfolding_all decide

/-! ### Claim C10, counterexample -/

/-- C10, counterexample: the claim states every public `AngularFrequency`
constructor validates non-negativity.  `AngularFrequency::hz` performs no
validation: `hz(-1)` returns a value wrapping `-2π < 0` without an
error. -/
theorem C10_hz_accepts_negative :
    (AngularFrequency.hz (-1)).omega < 0 := by with_unfolding_all decide

/-! ### Claim C5 -/

/-- C5: `impedance(kind, ω)` returns `Finite(r+0j)` for a known resistor;
`Finite(0+jωl)` for a known inductor, folding to the DC limit `Short` at
ω = 0; `Open` below the 1e-12 DC threshold and `Finite(0 − j/(ωc))` above
it for a known capacitor; `Open` for unknown R/L/C; the stored result
verbatim for an opaque impedance; and `Short` for sources.  (The R/L/C
values are quantified over validated, hence positive, magnitudes as in the
spec's data model.) -/
theorem C5_component_impedance (r l c ω : ℚ) (name : String)
    (z : ImpedanceResult) (v : Voltage) (i : Current)
    (hr : 0 < r) (hl : 0 < l) (hc : 0 < c) (_hω : 0 ≤ ω) :
    (ComponentKind.Resistor ⟨.Known r⟩).impedance ⟨ω⟩ = .Finite ⟨r, 0⟩ ∧
    (ComponentKind.Inductor ⟨.Known l⟩).impedance ⟨ω⟩
      = (if ω = 0 then .Short else .Finite ⟨0, ω * l⟩) ∧
    (ComponentKind.Capacitor ⟨.Known c⟩).impedance ⟨ω⟩
      = (if ω < epsTiny then .Open else .Finite ⟨0, -1 / (ω * c)⟩) ∧
    (ComponentKind.Resistor ⟨.Unknown name⟩).impedance ⟨ω⟩ = .Open ∧
    (ComponentKind.Inductor ⟨.Unknown name⟩).impedance ⟨ω⟩ = .Open ∧
    (ComponentKind.Capacitor ⟨.Unknown name⟩).impedance ⟨ω⟩ = .Open ∧
    (ComponentKind.Impedance z).impedance ⟨ω⟩ = z ∧
    (ComponentKind.VoltageSource v).impedance ⟨ω⟩ = .Short ∧
    (ComponentKind.CurrentSource i).impedance ⟨ω⟩ = .Short := by
  refine ⟨?_, ?_, ?_, rfl, rfl, rfl, rfl, rfl, rfl⟩
  · simp only [ComponentKind.impedance, Resistance.toOption, ImpedanceResult.new_finite,
      Cx.eq_iff, Cx.zero_def]
    simp [hr.ne']
  · simp only [ComponentKind.impedance, Inductance.toOption, ImpedanceResult.new_finite,
      Cx.eq_iff, Cx.zero_def]
    rcases eq_or_ne ω 0 with h0 | h0
    · simp [h0]
    · have : ω * l ≠ 0 := mul_ne_zero h0 (ne_of_gt hl)
      simp [h0, this]
  · simp only [ComponentKind.impedance, Capacitance.toOption]
    rcases lt_or_le ω epsTiny with hlt | hge
    · simp [hlt]
    · have hωpos : 0 < ω := lt_of_lt_of_le (by norm_num [epsTiny]) hge
      have : -1 / (ω * c) ≠ 0 := by
        have : ω * c ≠ 0 := ne_of_gt (mul_pos hωpos hc)
        simp [div_eq_zero_iff, this]
      simp [not_lt.mpr hge, ImpedanceResult.new_finite, Cx.eq_iff, Cx.zero_def, this]

/-- Witness for C5 at `r = 2, l = 3, c = 5, ω = 1`. -/
theorem C5_component_impedance_witness :
    (ComponentKind.Resistor ⟨.Known 2⟩).impedance ⟨1⟩ = .Finite ⟨2, 0⟩ ∧
    (ComponentKind.Inductor ⟨.Known 3⟩).impedance ⟨1⟩
      = (if (1 : ℚ) = 0 then .Short else .Finite ⟨0, 1 * 3⟩) ∧
    (ComponentKind.Capacitor ⟨.Known 5⟩).impedance ⟨1⟩
      = (if (1 : ℚ) < epsTiny then .Open else .Finite ⟨0, -1 / (1 * 5)⟩) ∧
    (ComponentKind.Resistor ⟨.Unknown "x"⟩).impedance ⟨1⟩ = .Open ∧
    (ComponentKind.Inductor ⟨.Unknown "x"⟩).impedance ⟨1⟩ = .Open ∧
    (ComponentKind.Capacitor ⟨.Unknown "x"⟩).impedance ⟨1⟩ = .Open ∧
    (ComponentKind.Impedance .Short).impedance ⟨1⟩ = .Short ∧
    (ComponentKind.VoltageSource (Voltage.dc 5)).impedance ⟨1⟩ = .Short ∧
    (ComponentKind.CurrentSource (Current.dc 5)).impedance ⟨1⟩ = .Short :=
  C5_component_impedance 2 3 5 1 "x" .Short (Voltage.dc 5) (Current.dc 5)
    (by norm_num) (by norm_num) (by norm_num) (by norm_num)

/-! ### Claim C7, amended -/

/-- C7 (amended): `impedance_to_kind` maps `Finite(z)` with |Im z| < 1e-12
and Re z > 0 to a `Resistor`, `Finite(z)` with |Im z| ≥ 1e-12 to a generic
`Impedance{z}`, and `Open`/`Short` to generic `Impedance`; it fails with a
resistance-validation error exactly when |Im z| < 1e-12 and Re z ≤ 0 (not
only for strictly negative real parts with exactly zero imaginary
part). -/
theorem C7_impedance_to_kind_characterisation (z : Cx) :
    (impedance_to_kind (.Finite z) = .ok (.Resistor ⟨.Known z.re⟩)
        ↔ |z.im| < epsTiny ∧ 0 < z.re) ∧
    (impedance_to_kind (.Finite z) = .error (.InvalidResistance z.re)
        ↔ |z.im| < epsTiny ∧ z.re ≤ 0) ∧
    (impedance_to_kind (.Finite z) = .ok (.Impedance (.Finite z))
        ↔ epsTiny ≤ |z.im|) ∧
    impedance_to_kind .Open = .ok (.Impedance .Open) ∧
    impedance_to_kind .Short = .ok (.Impedance .Short) := by
  simp only [impedance_to_kind, Resistance.known]
  rcases lt_or_le (|z.im|) epsTiny with him | him
  · rcases lt_or_le 0 z.re with hre | hre
    · simp [him, hre, not_le.mpr hre, not_le.mpr him, Except.map]
    · simp [him, hre, not_lt.mpr hre, not_le.mpr him, Except.map]
  · have hz0 : z ≠ 0 := by
      intro h
      have him2 : (1 : ℚ) / 1000000000000 ≤ 0 := by
        simpa [h, Cx.zero_def, epsTiny] using him
      norm_num at him2
    simp [not_lt.mpr him, him, ImpedanceResult.new_finite, hz0]

/-! ### Claim C8 -/

/-- C8: commutativity of `combine_series` and `combine_parallel`, `Short`
as two-sided series identity, `Open` as series annihilator, `Open` as
two-sided parallel identity, `Short` as parallel annihilator, over the
whole extended impedance domain. -/
theorem C8_combinator_laws (a b : ImpedanceResult) :
    combine_series a b = combine_series b a ∧
    combine_parallel a b = combine_parallel b a ∧
    combine_series a .Short = a ∧
    combine_series .Short a = a ∧
    combine_series a .Open = .Open ∧
    combine_parallel a .Open = a ∧
    combine_parallel .Open a = a ∧
    combine_parallel a .Short = .Short := by
  refine ⟨?_, ?_, ?_, ?_, ?_, ?_, ?_, ?_⟩ <;>
    cases a <;> cases b <;>
    simp [combine_series, combine_parallel, Cx.add_comm]

/-! ### Claim C9, amended -/

/-- C9 (amended): after `cache_impedances(ω)` every active component has
`cached_impedance = Some(impedance of its kind at ω)`; every inactive
component keeps its previous cached value (in particular a never-cached
inactive component stays `None`, but a stale cache on a deactivated
component is not cleared); and nodes, ground, adjacency, component count
and all other component fields are unchanged. -/
theorem C9_cache_impedances_frame (g : CircuitGraph) (ω : AngularFrequency) (i : Nat) :
    (g.cache_impedances ω).nodes = g.nodes ∧
    (g.cache_impedances ω).ground = g.ground ∧
    (g.cache_impedances ω).adjacency = g.adjacency ∧
    (g.cache_impedances ω).components.length = g.components.length ∧
    ((g.cache_impedances ω).comp? i).map (·.id) = (g.comp? i).map (·.id) ∧
    ((g.cache_impedances ω).comp? i).map (·.kind) = (g.comp? i).map (·.kind) ∧
    ((g.cache_impedances ω).comp? i).map (·.nodes) = (g.comp? i).map (·.nodes) ∧
    ((g.cache_impedances ω).comp? i).map (·.is_active) = (g.comp? i).map (·.is_active) ∧
    ((g.cache_impedances ω).comp? i).map (·.cached_impedance)
      = (g.comp? i).map (fun c =>
          if c.is_active then some (c.kind.impedance ω) else c.cached_impedance) := by
  refine ⟨rfl, rfl, rfl, by simp [CircuitGraph.cache_impedances], ?_, ?_, ?_, ?_, ?_⟩ <;>
    simp only [CircuitGraph.cache_impedances, CircuitGraph.comp?, List.get?_eq_getElem?,
      List.getElem?_map] <;>
    cases hgi : g.components[i]? with
    | none => simp
    | some c => by_cases hc : c.is_active <;> simp [hc]

/-! ### Claim C10, amended -/

/-- C10 (amended): `AngularFrequency::new` wraps exactly the non-negative
arguments and rejects the negative ones with a validation error, so
values built through `new` always satisfy ω ≥ 0; but `AngularFrequency::hz`
applies no validation, and negative frequency arguments produce a wrapped
negative ω (finiteness of an `f64` argument is not expressible in the
rational embedding). -/
theorem C10_angular_frequency_validation (ω : ℚ) :
    (AngularFrequency.new ω = .ok ⟨ω⟩ ↔ 0 ≤ ω) ∧
    (AngularFrequency.new ω = .error (.InvalidAngularFrequency ω) ↔ ω < 0) ∧
    (AngularFrequency.hz (-1/2)).omega < 0 := by
  refine ⟨?_, ?_, by with_unfolding_all decide⟩ <;>
    simp only [AngularFrequency.new] <;>
    rcases le_or_lt 0 ω with h | h
  · simp [h]
  · simp [not_le.mpr h]
  · simp [h, not_lt.mpr h]
  · simp [not_le.mpr h, h]

/-! ### Claim C4, amended -/

/-- Declarative series-pivot condition of the amended claim C4: stored
degree 2, exactly two active incident components, both passive, both with
nonzero cached impedance.  (The ground node is deliberately absent: the
source never consults it, see `C4_series_pivot_at_ground`.)  Written
following the claim's words, to be compared with the scanning code
`seriesCheckAt`/`find_series_reduction`. -/
def isSeriesPivot (g : CircuitGraph) (n : Nat) : Bool :=
  (((g.nodes.get? n).map (·.degree)).getD 0 == 2) &&
  match g.connections_at n with
  | [i, j] =>
      (match g.comp? i, g.comp? j with
       | some ci, some cj =>
           ci.kind.is_passive && cj.kind.is_passive &&
           decide (cachedC ci ≠ 0) && decide (cachedC cj ≠ 0)
       | _, _ => false)
  | _ => false

/-- The series step predicted by the amended claim C4 at pivot `n`: the two
incident components (in adjacency order) with the sum of their cached
impedances and a zero `equivalent` placeholder. -/
def seriesStepAt (g : CircuitGraph) (n : Nat) : Option ReductionStep :=
  match g.connections_at n with
  | [i, j] =>
      (match g.comp? i, g.comp? j with
       | some ci, some cj => some (.Series [i, j] 0 (cachedC ci + cachedC cj))
       | _, _ => none)
  | _ => none

theorem seriesCheckAt_eq_pivot (g : CircuitGraph) (n : Nat) :
    seriesCheckAt g n = if isSeriesPivot g n then seriesStepAt g n else none := by
  simp only [seriesCheckAt, isSeriesPivot, seriesStepAt]
  by_cases hdeg : ((g.nodes[n]?).map (·.degree)).getD 0 = 2
  · cases hcon : g.connections_at n with
    | nil => simp [hdeg]
    | cons a t =>
      cases t with
      | nil => simp [hdeg]
      | cons b t2 =>
        cases t2 with
        | nil =>
          cases hc1 : g.comp? a with
          | none => simp [hdeg, hc1]
          | some ci =>
            cases hc2 : g.comp? b with
            | none => simp [hdeg, hc1, hc2]
            | some cj =>
              by_cases hp1 : ci.kind.is_passive <;> by_cases hp2 : cj.kind.is_passive <;>
                by_cases hz1 : cachedC ci = 0 <;> by_cases hz2 : cachedC cj = 0 <;>
                simp [hdeg, hc1, hc2, hp1, hp2, hz1, hz2]
        | cons x t3 => simp [hdeg]
  · simp [hdeg]

theorem isSeriesPivot_stepAt_isSome (g : CircuitGraph) (n : Nat)
    (h : isSeriesPivot g n = true) : ∃ s, seriesStepAt g n = some s := by
  simp only [isSeriesPivot] at h
  simp only [seriesStepAt]
  cases hcon : g.connections_at n with
  | nil => simp [hcon] at h
  | cons a t =>
    cases t with
    | nil => simp [hcon] at h
    | cons b t2 =>
      cases t2 with
      | nil =>
        cases hc1 : g.comp? a with
        | none => simp [hcon, hc1] at h
        | some ci =>
          cases hc2 : g.comp? b with
          | none => simp [hcon, hc1, hc2] at h
          | some cj =>
            exact ⟨.Series [a, b] 0 (cachedC ci + cachedC cj), by simp [hc1, hc2]⟩
      | cons x t3 => simp [hcon] at h

theorem findSeriesAux_eq_none (g : CircuitGraph) (k : Nat) : ∀ n,
    (findSeriesAux g n k = none ↔ ∀ m, n ≤ m → m < n + k → seriesCheckAt g m = none) := by
  induction k with
  | zero =>
    intro n
    constructor
    · intro _ m h1 h2; omega
    · intro _; rfl
  | succ k ih =>
    intro n
    unfold findSeriesAux
    cases hn : seriesCheckAt g n with
    | some s =>
      constructor
      · intro h; exact absurd h (by simp)
      · intro h
        have h0 := h n (le_refl n) (by omega)
        rw [hn] at h0
        exact absurd h0 (by simp)
    | none =>
      simp only []
      rw [ih (n + 1)]
      constructor
      · intro h m h1 h2
        rcases eq_or_lt_of_le h1 with rfl | hlt
        · exact hn
        · exact h m hlt (by omega)
      · intro h m h1 h2
        exact h m (by omega) (by omega)

theorem findSeriesAux_eq_first (g : CircuitGraph) (k : Nat) : ∀ n t s, n ≤ t → t < n + k →
    (∀ m, n ≤ m → m < t → seriesCheckAt g m = none) →
    seriesCheckAt g t = some s →
    findSeriesAux g n k = some s := by
  induction k with
  | zero => intro n t s h1 h2 _ _; omega
  | succ k ih =>
    intro n t s h1 h2 hfirst hsome
    unfold findSeriesAux
    rcases eq_or_lt_of_le h1 with rfl | hlt
    · rw [hsome]
    · have hn : seriesCheckAt g n = none := hfirst n (le_refl n) hlt
      rw [hn]
      exact ih (n + 1) t s (by omega) (by omega) (fun m hm1 hm2 => hfirst m (by omega) hm2) hsome

/-- C4 (amended): `find_series_reduction` scans nodes in ascending index
order; it returns `none` exactly when no node within range satisfies the
pivot condition (stored degree 2, exactly two active incident components,
both passive, both with nonzero cached impedance), and at the least node
satisfying that condition it returns the series step of the two incident
components.  The ground node is *not* excluded — the claim's non-ground
requirement does not hold (see `C4_series_pivot_at_ground`) — and the
zero-cached-impedance skip is an additional condition the original claim
lacked. -/
theorem C4_series_discovery_characterised (g : CircuitGraph) :
    (find_series_reduction g = none ↔
      ∀ n, n < g.nodes.length → isSeriesPivot g n = false) ∧
    (∀ n, n < g.nodes.length → isSeriesPivot g n = true →
      (∀ m, m < n → isSeriesPivot g m = false) →
      find_series_reduction g = seriesStepAt g n) := by
  constructor
  · unfold find_series_reduction
    rw [findSeriesAux_eq_none]
    constructor
    · intro h n hn
      have h0 := h n (by omega) (by omega)
      rw [seriesCheckAt_eq_pivot] at h0
      by_cases hp : isSeriesPivot g n = true
      · rw [if_pos hp] at h0
        obtain ⟨s, hs⟩ := isSeriesPivot_stepAt_isSome g n hp
        rw [hs] at h0
        exact absurd h0 (by simp)
      · simpa using hp
    · intro h m _ h2
      rw [seriesCheckAt_eq_pivot, h m (by omega)]
      simp
  · intro n hn hpiv hfirst
    obtain ⟨s, hs⟩ := isSeriesPivot_stepAt_isSome g n hpiv
    have hcheck : seriesCheckAt g n = some s := by
      rw [seriesCheckAt_eq_pivot, if_pos hpiv, hs]
    unfold find_series_reduction
    rw [findSeriesAux_eq_first g g.nodes.length 0 n s (by omega) (by omega) ?_ hcheck, hs]
    intro m _ hm2
    rw [seriesCheckAt_eq_pivot, hfirst m hm2]
    simp

/-- Witness for the amended claim C4 on the grounded chain `gGnd`: node 1
is the least pivot, and the scanner returns exactly the step predicted
there. -/
theorem C4_series_discovery_witness :
    find_series_reduction (gGnd.cache_impedances omega100)
      = seriesStepAt (gGnd.cache_impedances omega100) 1 :=
  (C4_series_discovery_characterised (gGnd.cache_impedances omega100)).2 1
    (by with_unfolding_all decide) (by with_unfolding_all decide)
    (by with_unfolding_all decide)

/-! ### Claim C3: termination and step-count bound

The spec-level measure is the number of components that are simultaneously
active and passive; every applied reduction step strictly decreases it. -/

/-- The number of active passive components (the spec's termination
measure). -/
def apCount (g : CircuitGraph) : Nat :=
  (g.components.filter (fun c => c.is_active && c.kind.is_passive)).length

/-- How many endpoints of component `i` equal node `n` (0, 1, or 2): the
multiplicity the spec's adjacency invariant demands of `adjacency[n]`. -/
def multOf (g : CircuitGraph) (i n : Nat) : Nat :=
  match g.comp? i with
  | none => 0
  | some c => (if c.nodes.1 = n then 1 else 0) + (if c.nodes.2 = n then 1 else 0)

/-- The topological part of the spec's graph invariants: adjacency row per
node, endpoints in range, `adjacency[n]` holding exactly the incident
component indices (with multiplicity), and adjacency entries in range. -/
def InvTopo (g : CircuitGraph) : Prop :=
  g.adjacency.length = g.nodes.length ∧
  (∀ c ∈ g.components, c.nodes.1 < g.nodes.length ∧ c.nodes.2 < g.nodes.length) ∧
  (∀ n, n < g.nodes.length → ∀ i, i < g.components.length →
    (g.adjAt n).count i = multOf g i n) ∧
  (∀ n, n < g.nodes.length → ∀ j ∈ g.adjAt n, j < g.components.length)

instance (g : CircuitGraph) : Decidable (InvTopo g) := by
  unfold InvTopo; infer_instance

/-- The reducer's loop invariant: topology plus the fact that every active
self-loop component reads a zero cached impedance (equivalents are created
uncached; input graphs have no active self-loops at all). -/
def InvI (g : CircuitGraph) : Prop :=
  InvTopo g ∧
  (∀ c ∈ g.components, c.is_active = true → c.nodes.1 = c.nodes.2 → cachedC c = 0)

instance (g : CircuitGraph) : Decidable (InvI g) := by
  unfold InvI; infer_instance

/-- The spec's graph invariants for input graphs: topology plus the
no-active-self-loop invariant (spec invariant 1). -/
def InvR (g : CircuitGraph) : Prop :=
  InvTopo g ∧ (∀ c ∈ g.components, c.is_active = true → c.nodes.1 ≠ c.nodes.2)

instance (g : CircuitGraph) : Decidable (InvR g) := by
  unfold InvR; infer_instance

theorem length_filter_congr_map {α β : Type} (f : α → β) (p : β → Bool) (q : α → Bool)
    (l : List α) (h : ∀ a, p (f a) = q a) :
    ((l.map f).filter p).length = (l.filter q).length := by
  induction l with
  | nil => rfl
  | cons a t ih =>
    simp only [List.map_cons, List.filter_cons, h a]
    cases q a <;> simp [ih]

theorem length_filter_set {α : Type} (l : List α) (i : Nat) (a c : α) (p : α → Bool)
    (h : l[i]? = some c) :
    ((l.set i a).filter p).length + (if p c then 1 else 0)
      = (l.filter p).length + (if p a then 1 else 0) := by
  induction l generalizing i with
  | nil => simp at h
  | cons x t ih =>
    cases i with
    | zero =>
      simp only [List.getElem?_cons_zero, Option.some.injEq] at h
      subst h
      simp only [List.set_cons_zero, List.filter_cons]
      cases hpx : p x <;> cases hpa : p a <;> simp [hpx, hpa]
    | succ n =>
      simp only [List.getElem?_cons_succ] at h
      simp only [List.set_cons_succ, List.filter_cons]
      have h2 := ih n h
      cases hpx : p x <;> (try simp [hpx]) <;> omega

/-- `cache_impedances` viewed through `comp?` (helper; `cache_impedances`
maps each active component to a cached copy). -/
theorem cache_comp? (g : CircuitGraph) (ω : AngularFrequency) (i : Nat) :
    (g.cache_impedances ω).comp? i = (g.comp? i).map (fun c =>
      if c.is_active then { c with cached_impedance := some (c.kind.impedance ω) } else c) := by
  simp only [CircuitGraph.cache_impedances, CircuitGraph.comp?, List.get?_eq_getElem?,
    List.getElem?_map]

theorem cache_multOf (g : CircuitGraph) (ω : AngularFrequency) (i n : Nat) :
    multOf (g.cache_impedances ω) i n = multOf g i n := by
  simp only [multOf, cache_comp?]
  cases g.comp? i with
  | none => rfl
  | some c => by_cases hc : c.is_active <;> simp [hc]

theorem cache_apCount (g : CircuitGraph) (ω : AngularFrequency) :
    apCount (g.cache_impedances ω) = apCount g := by
  simp only [apCount, CircuitGraph.cache_impedances]
  exact length_filter_congr_map _ _ _ _ (fun c => by by_cases hc : c.is_active <;> simp [hc])

theorem cache_InvI (g : CircuitGraph) (ω : AngularFrequency) (h : InvR g) :
    InvI (g.cache_impedances ω) := by
  obtain ⟨⟨hlen, hrange, hcount, hrow⟩, hloop⟩ := h
  refine ⟨⟨hlen, ?_, ?_, ?_⟩, ?_⟩
  · intro c hc
    simp only [CircuitGraph.cache_impedances, List.mem_map] at hc
    obtain ⟨c0, hc0, rfl⟩ := hc
    by_cases ha : c0.is_active <;> simp [ha] <;> exact hrange c0 hc0
  · intro n hn i hi
    rw [cache_multOf]
    exact hcount n hn i (by
      simpa [CircuitGraph.cache_impedances] using hi)
  · intro n hn j hj
    simpa [CircuitGraph.cache_impedances] using hrow n hn j hj
  · intro c hc hact heq
    simp only [CircuitGraph.cache_impedances, List.mem_map] at hc
    obtain ⟨c0, hc0, rfl⟩ := hc
    by_cases ha : c0.is_active
    · simp only [ha, if_true] at hact heq ⊢
      exact absurd heq (hloop c0 hc0 ha)
    · simp only [ha, if_false] at hact
      exact absurd hact (by simpa using ha)

theorem deactivate_adjacency (g : CircuitGraph) (i : Nat) :
    (deactivateComp g i).adjacency = g.adjacency := by
  unfold deactivateComp CircuitGraph.bumpDegree
  cases g.comp? i <;> rfl

theorem deactivate_adjAt (g : CircuitGraph) (i n : Nat) :
    (deactivateComp g i).adjAt n = g.adjAt n := by
  simp [CircuitGraph.adjAt, deactivate_adjacency]

theorem deactivate_nodes_length (g : CircuitGraph) (i : Nat) :
    (deactivateComp g i).nodes.length = g.nodes.length := by
  unfold deactivateComp CircuitGraph.bumpDegree
  cases g.comp? i <;> simp [List.length_modify]

theorem deactivate_components_length (g : CircuitGraph) (i : Nat) :
    (deactivateComp g i).components.length = g.components.length := by
  unfold deactivateComp CircuitGraph.bumpDegree
  cases hc : g.comp? i <;> simp

theorem comp?_isSome_lt (g : CircuitGraph) (i : Nat) (c : CircuitComponent)
    (h : g.comp? i = some c) : i < g.components.length := by
  simp only [CircuitGraph.comp?, List.get?_eq_getElem?] at h
  exact (List.getElem?_eq_some_iff.mp h).1

theorem deactivate_comp?_eq (g : CircuitGraph) (i : Nat) :
    (deactivateComp g i).comp? i
      = (g.comp? i).map (fun c => { c with is_active := false }) := by
  unfold deactivateComp CircuitGraph.bumpDegree
  cases hc : g.comp? i with
  | none => simp [hc]
  | some c =>
    have hlt := comp?_isSome_lt g i c hc
    simp only [CircuitGraph.comp?, List.get?_eq_getElem?, List.getElem?_set] at hc ⊢
    simp [hlt, hc]

theorem deactivate_comp?_ne (g : CircuitGraph) (i j : Nat) (h : i ≠ j) :
    (deactivateComp g i).comp? j = g.comp? j := by
  unfold deactivateComp CircuitGraph.bumpDegree
  cases hc : g.comp? i with
  | none => rfl
  | some c =>
    simp only [CircuitGraph.comp?, List.get?_eq_getElem?, List.getElem?_set] at hc ⊢
    simp [h]

theorem deactivate_multOf (g : CircuitGraph) (i j n : Nat) :
    multOf (deactivateComp g i) j n = multOf g j n := by
  unfold multOf
  rcases eq_or_ne i j with rfl | hne
  · rw [deactivate_comp?_eq]
    cases g.comp? i <;> rfl
  · rw [deactivate_comp?_ne g i j hne]

theorem deactivate_activePassiveAt_ne (g : CircuitGraph) (i j : Nat) (h : i ≠ j) :
    activePassiveAt (deactivateComp g i) j = activePassiveAt g j := by
  unfold activePassiveAt
  rw [deactivate_comp?_ne g i j h]

theorem apCount_deactivate_true (g : CircuitGraph) (i : Nat)
    (h : activePassiveAt g i = true) :
    apCount (deactivateComp g i) + 1 = apCount g := by
  unfold activePassiveAt at h
  cases hc : g.comp? i with
  | none => rw [hc] at h; simp at h
  | some c =>
    rw [hc] at h
    simp only [Bool.and_eq_true] at h
    unfold deactivateComp CircuitGraph.bumpDegree
    rw [hc]
    simp only [apCount]
    have hc2 : g.components[i]? = some c := by
      simpa [CircuitGraph.comp?, List.get?_eq_getElem?] using hc
    have := length_filter_set g.components i { c with is_active := false } c
      (fun c => c.is_active && c.kind.is_passive) hc2
    simp only [h.1, h.2, Bool.and_self, if_true, Bool.false_and, if_false] at this
    simpa using this

theorem apCount_deactivate_le (g : CircuitGraph) (i : Nat) :
    apCount (deactivateComp g i) ≤ apCount g := by
  by_cases h : activePassiveAt g i = true
  · have := apCount_deactivate_true g i h
    omega
  · unfold activePassiveAt at h
    cases hc : g.comp? i with
    | none =>
      unfold deactivateComp
      rw [hc]
    | some c =>
      rw [hc] at h
      unfold deactivateComp CircuitGraph.bumpDegree
      rw [hc]
      simp only [apCount]
      have hc2 : g.components[i]? = some c := by
        simpa [CircuitGraph.comp?, List.get?_eq_getElem?] using hc
      have := length_filter_set g.components i { c with is_active := false } c
        (fun c => c.is_active && c.kind.is_passive) hc2
      simp only [Bool.false_and, Bool.false_eq_true, if_false] at this
      omega

theorem deactivate_InvI (g : CircuitGraph) (i : Nat) (h : InvI g) :
    InvI (deactivateComp g i) := by
  obtain ⟨⟨hlen, hrange, hcount, hrow⟩, hloop⟩ := h
  refine ⟨⟨?_, ?_, ?_, ?_⟩, ?_⟩
  · rw [deactivate_adjacency, deactivate_nodes_length]; exact hlen
  · intro c hc
    rw [deactivate_nodes_length]
    unfold deactivateComp CircuitGraph.bumpDegree at hc
    cases hcomp : g.comp? i with
    | none => rw [hcomp] at hc; exact hrange c hc
    | some c0 =>
      rw [hcomp] at hc
      simp only [] at hc
      rcases List.mem_or_eq_of_mem_set hc with hmem | rfl
      · exact hrange c hmem
      · exact hrange c0 (by
          simp only [CircuitGraph.comp?, List.get?_eq_getElem?] at hcomp
          exact List.getElem?_mem hcomp)
  · intro n hn j hj
    rw [deactivate_adjAt, deactivate_multOf]
    exact hcount n (by rwa [deactivate_nodes_length] at hn) j
      (by rwa [deactivate_components_length] at hj)
  · intro n hn j hj
    rw [deactivate_components_length]
    rw [deactivate_nodes_length] at hn
    rw [deactivate_adjAt] at hj
    exact hrow n hn j hj
  · intro c hc hact heq
    unfold deactivateComp CircuitGraph.bumpDegree at hc
    cases hcomp : g.comp? i with
    | none => rw [hcomp] at hc; exact hloop c hc hact heq
    | some c0 =>
      rw [hcomp] at hc
      simp only [] at hc
      rcases List.mem_or_eq_of_mem_set hc with hmem | rfl
      · exact hloop c hmem hact heq
      · simp at hact

theorem foldl_deactivate_skeleton (members : List Nat) : ∀ g : CircuitGraph,
    (members.foldl deactivateComp g).adjacency = g.adjacency ∧
    (members.foldl deactivateComp g).nodes.length = g.nodes.length ∧
    (members.foldl deactivateComp g).components.length = g.components.length := by
  induction members with
  | nil => intro g; exact ⟨rfl, rfl, rfl⟩
  | cons i t ih =>
    intro g
    obtain ⟨h1, h2, h3⟩ := ih (deactivateComp g i)
    refine ⟨?_, ?_, ?_⟩
    · rw [List.foldl_cons, h1, deactivate_adjacency]
    · rw [List.foldl_cons, h2, deactivate_nodes_length]
    · rw [List.foldl_cons, h3, deactivate_components_length]

theorem foldl_deactivate_InvI (members : List Nat) : ∀ g : CircuitGraph,
    InvI g → InvI (members.foldl deactivateComp g) := by
  induction members with
  | nil => intro g h; exact h
  | cons i t ih =>
    intro g h
    exact ih (deactivateComp g i) (deactivate_InvI g i h)

theorem foldl_deactivate_apCount (members : List Nat) : ∀ g : CircuitGraph,
    members.Nodup → (∀ i ∈ members, activePassiveAt g i = true) →
    apCount (members.foldl deactivateComp g) + members.length = apCount g := by
  induction members with
  | nil => intro g _ _; simp
  | cons i t ih =>
    intro g hnd hall
    rw [List.foldl_cons]
    have hi : activePassiveAt g i = true := hall i (List.mem_cons_self i t)
    have hrest : ∀ j ∈ t, activePassiveAt (deactivateComp g i) j = true := by
      intro j hj
      have hne : i ≠ j := fun h => (List.nodup_cons.mp hnd).1 (h ▸ hj)
      rw [deactivate_activePassiveAt_ne g i j hne]
      exact hall j (List.mem_cons_of_mem i hj)
    have := ih (deactivateComp g i) (List.nodup_cons.mp hnd).2 hrest
    have h2 := apCount_deactivate_true g i hi
    simp only [List.length_cons]
    omega

theorem foldl_deactivate_apCount_le (members : List Nat) : ∀ g : CircuitGraph,
    apCount (members.foldl deactivateComp g) ≤ apCount g := by
  induction members with
  | nil => intro g; exact le_refl _
  | cons i t ih =>
    intro g
    exact le_trans (ih (deactivateComp g i)) (apCount_deactivate_le g i)

theorem addComp_components (g : CircuitGraph) (id : String) (kind : ComponentKind)
    (p : Nat × Nat) :
    (g.add_component id kind p).1.components
      = g.components ++ [⟨id, kind, p, true, none⟩] := rfl

theorem addComp_nodes_length (g : CircuitGraph) (id : String) (kind : ComponentKind)
    (p : Nat × Nat) :
    (g.add_component id kind p).1.nodes.length = g.nodes.length := by
  simp [CircuitGraph.add_component, CircuitGraph.bumpDegree, List.length_modify]

theorem addComp_apCount (g : CircuitGraph) (id : String) (kind : ComponentKind)
    (p : Nat × Nat) :
    apCount (g.add_component id kind p).1
      = apCount g + (if kind.is_passive then 1 else 0) := by
  simp only [apCount, addComp_components, List.filter_append, List.length_append]
  simp only [List.filter_cons, List.filter_nil, Bool.true_and]
  cases hk : kind.is_passive <;> simp

theorem addComp_comp?_old (g : CircuitGraph) (id : String) (kind : ComponentKind)
    (p : Nat × Nat) (i : Nat) (hi : i < g.components.length) :
    (g.add_component id kind p).1.comp? i = g.comp? i := by
  simp only [CircuitGraph.comp?, addComp_components, List.get?_eq_getElem?]
  exact List.getElem?_append_left hi

theorem addComp_comp?_new (g : CircuitGraph) (id : String) (kind : ComponentKind)
    (p : Nat × Nat) :
    (g.add_component id kind p).1.comp? g.components.length
      = some ⟨id, kind, p, true, none⟩ := by
  simp only [CircuitGraph.comp?, addComp_components, List.get?_eq_getElem?]
  rw [List.getElem?_append_right (le_refl _)]
  simp

theorem addComp_adjacency_getElem (g : CircuitGraph) (id : String) (kind : ComponentKind)
    (p : Nat × Nat) (n : Nat) :
    (g.add_component id kind p).1.adjacency[n]?
      = ((g.adjacency[n]?.map (fun r =>
          if p.1 = n then r ++ [g.components.length] else r)).map (fun r =>
          if p.2 = n then r ++ [g.components.length] else r)) := by
  simp only [CircuitGraph.add_component, CircuitGraph.bumpDegree]
  rw [List.getElem?_modify, List.getElem?_modify]
  cases g.adjacency[n]? <;> simp [Option.map_map, Function.comp]

theorem addComp_InvI (g : CircuitGraph) (id : String) (kind : ComponentKind)
    (p : Nat × Nat) (hp1 : p.1 < g.nodes.length) (hp2 : p.2 < g.nodes.length)
    (hI : InvI g) : InvI (g.add_component id kind p).1 := by
  obtain ⟨⟨hlen, hrange, hcount, hrow⟩, hloop⟩ := hI
  have hadjlen : (g.add_component id kind p).1.adjacency.length = g.adjacency.length := by
    simp [CircuitGraph.add_component, CircuitGraph.bumpDegree, List.length_modify]
  have hadjAt : ∀ n, n < g.nodes.length →
      (g.add_component id kind p).1.adjAt n
        = (if p.2 = n then
            ((if p.1 = n then g.adjAt n ++ [g.components.length] else g.adjAt n)
              ++ [g.components.length])
          else (if p.1 = n then g.adjAt n ++ [g.components.length] else g.adjAt n)) := by
    intro n hn
    have hn2 : n < g.adjacency.length := by omega
    have hr := List.getElem?_eq_getElem hn2
    simp only [CircuitGraph.adjAt, List.get?_eq_getElem?, addComp_adjacency_getElem, hr]
    simp
  refine ⟨⟨?_, ?_, ?_, ?_⟩, ?_⟩
  · rw [hadjlen, addComp_nodes_length]; exact hlen
  · intro c hc
    rw [addComp_nodes_length]
    rw [addComp_components] at hc
    rcases List.mem_append.mp hc with hmem | hmem
    · exact hrange c hmem
    · simp only [List.mem_singleton] at hmem
      subst hmem
      exact ⟨hp1, hp2⟩
  · intro n hn i hi
    rw [addComp_nodes_length] at hn
    rw [addComp_components, List.length_append, List.length_singleton] at hi
    rw [hadjAt n hn]
    rcases Nat.lt_or_ge i g.components.length with hilt | hige
    · have hne : g.components.length ≠ i := by omega
      have hbase := hcount n hn i hilt
      have hmult : multOf (g.add_component id kind p).1 i n = multOf g i n := by
        unfold multOf
        rw [addComp_comp?_old g id kind p i hilt]
      rw [hmult]
      split <;> split <;>
        simp [List.count_append, List.count_singleton, List.count_cons, hne, hbase]
    · have hieq : i = g.components.length := by omega
      subst hieq
      have hnotmem : g.components.length ∉ g.adjAt n := by
        intro hmem
        have := hrow n hn _ hmem
        omega
      have hbase : (g.adjAt n).count g.components.length = 0 :=
        List.count_eq_zero.mpr hnotmem
      have hmult : multOf (g.add_component id kind p).1 g.components.length n
          = (if p.1 = n then 1 else 0) + (if p.2 = n then 1 else 0) := by
        unfold multOf
        rw [addComp_comp?_new]
      rw [hmult]
      split <;> split <;>
        simp_all [List.count_append, List.count_singleton, List.count_cons]
  · intro n hn j hj
    rw [addComp_nodes_length] at hn
    rw [addComp_components, List.length_append, List.length_singleton]
    rw [hadjAt n hn] at hj
    have hj2 : j ∈ g.adjAt n ∨ j = g.components.length := by
      revert hj
      split <;> split <;> (try simp [List.mem_append]) <;> tauto
    rcases hj2 with hm | rfl
    · have := hrow n hn j hm
      omega
    · omega
  · intro c hc hact heq
    rw [addComp_components] at hc
    rcases List.mem_append.mp hc with hmem | hmem
    · exact hloop c hmem hact heq
    · simp only [List.mem_singleton] at hmem
      subst hmem
      rfl

theorem findSeriesAux_some_exists (g : CircuitGraph) (k : Nat) : ∀ n s,
    findSeriesAux g n k = some s → ∃ t, seriesCheckAt g t = some s := by
  induction k with
  | zero => intro n s h; exact Option.noConfusion h
  | succ k ih =>
    intro n s h
    unfold findSeriesAux at h
    cases hn : seriesCheckAt g n with
    | some s0 =>
      rw [hn] at h
      exact ⟨n, hn.trans h⟩
    | none =>
      rw [hn] at h
      exact ih (n + 1) s h

theorem mem_connections_spec (g : CircuitGraph) (n i : Nat)
    (h : i ∈ g.connections_at n) :
    ∃ c, g.comp? i = some c ∧ c.is_active = true := by
  unfold CircuitGraph.connections_at at h
  have hp := List.of_mem_filter h
  cases hc : g.comp? i with
  | none => rw [hc] at hp; simp at hp
  | some c =>
    rw [hc] at hp
    simp at hp
    exact ⟨c, rfl, hp⟩

theorem connections_nonempty_lt (g : CircuitGraph) (n i : Nat)
    (hlen : g.adjacency.length = g.nodes.length)
    (h : i ∈ g.adjAt n) : n < g.nodes.length := by
  by_contra hge
  have hnone : g.adjacency[n]? = none :=
    List.getElem?_eq_none (by omega)
  have hemp : g.adjAt n = [] := by
    unfold CircuitGraph.adjAt
    rw [List.get?_eq_getElem?, hnone]
    rfl
  rw [hemp] at h
  exact absurd h (List.not_mem_nil i)

theorem self_pair_cached_zero (g : CircuitGraph) (n i : Nat) (ci : CircuitComponent)
    (hI : InvI g) (hcon : g.connections_at n = [i, i])
    (hci : g.comp? i = some ci) (hact : ci.is_active = true) : cachedC ci = 0 := by
  obtain ⟨⟨hlen, _, hcount, _⟩, hloop⟩ := hI
  have hmemcon : i ∈ g.connections_at n := by rw [hcon]; simp
  have hmemadj : i ∈ g.adjAt n := List.mem_of_mem_filter hmemcon
  have hnlt : n < g.nodes.length := connections_nonempty_lt g n i hlen hmemadj
  have h2 : 2 ≤ (g.adjAt n).count i := by
    have hsub : (g.connections_at n).count i ≤ (g.adjAt n).count i :=
      (List.filter_sublist _).count_le i
    rw [hcon] at hsub
    simpa using hsub
  rw [hcount n hnlt i (comp?_isSome_lt g i ci hci)] at h2
  unfold multOf at h2
  rw [hci] at h2
  have hmem : ci ∈ g.components := by
    simp only [CircuitGraph.comp?, List.get?_eq_getElem?] at hci
    exact List.getElem?_mem hci
  by_cases h1 : ci.nodes.1 = n <;> by_cases hb : ci.nodes.2 = n <;>
    simp only [h1, hb, if_true, if_false] at h2 <;> try omega
  exact hloop ci hmem hact (h1.trans hb.symm)

theorem seriesCheckAt_some_spec (g : CircuitGraph) (t : Nat) (s : ReductionStep)
    (hI : InvI g) (h : seriesCheckAt g t = some s) :
    ∃ i j ci cj, s = .Series [i, j] 0 (cachedC ci + cachedC cj) ∧ i ≠ j ∧
      g.comp? i = some ci ∧ g.comp? j = some cj ∧
      ci.is_active = true ∧ cj.is_active = true ∧
      ci.kind.is_passive = true ∧ cj.kind.is_passive = true := by
  simp only [seriesCheckAt] at h
  split at h
  · simp at h
  · cases hcon : g.connections_at t with
    | nil => rw [hcon] at h; simp at h
    | cons a u =>
      cases u with
      | nil => rw [hcon] at h; simp at h
      | cons b u2 =>
        cases u2 with
        | cons x u3 => rw [hcon] at h; simp at h
        | nil =>
          rw [hcon] at h
          simp only [] at h
          obtain ⟨ca, hca, hactA⟩ := mem_connections_spec g t a (by rw [hcon]; simp)
          obtain ⟨cb, hcb, hactB⟩ := mem_connections_spec g t b (by rw [hcon]; simp)
          rw [hca, hcb] at h
          simp only [] at h
          split at h
          · simp at h
          · split at h
            · simp at h
            · rename_i hpass hzero
              push_neg at hpass
              have hs : ReductionStep.Series [a, b] 0 (cachedC ca + cachedC cb) = s := by
                simpa using h
              have hne : a ≠ b := by
                rintro rfl
                rw [hca] at hcb
                have hcacb : ca = cb := by injection hcb
                subst hcacb
                have hz := self_pair_cached_zero g t a ca hI (by rw [hcon]) hca hactA
                exact hzero (Or.inl hz)
              exact ⟨a, b, ca, cb, hs.symm, hne, hca, hcb, hactA, hactB,
                by simpa using hpass.1, by simpa using hpass.2⟩

theorem find_series_some_spec (g : CircuitGraph) (s : ReductionStep)
    (hI : InvI g) (h : find_series_reduction g = some s) :
    ∃ i j ci cj, s = .Series [i, j] 0 (cachedC ci + cachedC cj) ∧ i ≠ j ∧
      g.comp? i = some ci ∧ g.comp? j = some cj ∧
      ci.is_active = true ∧ cj.is_active = true ∧
      ci.kind.is_passive = true ∧ cj.kind.is_passive = true := by
  obtain ⟨t, ht⟩ := findSeriesAux_some_exists g g.nodes.length 0 s h
  exact seriesCheckAt_some_spec g t s hI ht

theorem foldl_max_mem {α : Type} (f : α → Nat) (rest : List α) : ∀ k0 : α,
    rest.foldl (fun acc k => if f acc < f k then k else acc) k0 ∈ k0 :: rest := by
  induction rest with
  | nil => intro k0; simp
  | cons a t ih =>
    intro k0
    simp only [List.foldl_cons]
    rcases List.mem_cons.mp (ih (if f k0 < f a then a else k0)) with h | h
    · rw [h]
      by_cases hc : f k0 < f a
      · rw [if_pos hc]
        exact List.mem_cons_of_mem _ (List.mem_cons_self a t)
      · rw [if_neg hc]
        exact List.mem_cons_self k0 (a :: t)
    · exact List.mem_cons_of_mem _ (List.mem_cons_of_mem _ h)

theorem classMembers_nodup (g : CircuitGraph) (k : Nat × Nat) :
    (classMembers g k).Nodup :=
  (List.nodup_range _).filter _

theorem classMembers_mem_spec (g : CircuitGraph) (k : Nat × Nat) (i : Nat)
    (h : i ∈ classMembers g k) : activePassiveAt g i = true := by
  unfold classMembers at h
  have hp := List.of_mem_filter h
  simp only [Bool.and_eq_true] at hp
  exact hp.1

theorem find_parallel_some_spec (g : CircuitGraph) (s : ReductionStep)
    (h : find_parallel_reduction g = some s) :
    ∃ members z, s = .Parallel members 0 z ∧ 2 ≤ members.length ∧ members.Nodup ∧
      ∀ i ∈ members, activePassiveAt g i = true := by
  simp only [find_parallel_reduction] at h
  cases hbig : (classKeys g).filter (fun k => 1 < (classMembers g k).length) with
  | nil => rw [hbig] at h; exact Option.noConfusion h
  | cons k0 rest =>
    rw [hbig] at h
    simp only [] at h
    set best := rest.foldl
      (fun acc k => if (classMembers g acc).length < (classMembers g k).length then k else acc)
      k0 with hbest
    have hmem : best ∈ k0 :: rest := foldl_max_mem (fun k => (classMembers g k).length) rest k0
    rw [← hbig] at hmem
    have hlen : 1 < (classMembers g best).length := by
      have := List.of_mem_filter hmem
      exact of_decide_eq_true this
    exact ⟨classMembers g best, _, ((Option.some.injEq _ _).mp h).symm, by omega,
      classMembers_nodup g best, fun i hi => classMembers_mem_spec g best i hi⟩

theorem impedance_to_kind_ok_passive (z : Cx) (k : ComponentKind)
    (h : impedance_to_kind (.Finite z) = .ok k) : k.is_passive = true := by
  have h' : (if |z.im| < epsTiny then
        (Resistance.known z.re).map (fun r => ComponentKind.Resistor r)
      else .ok (.Impedance (ImpedanceResult.new_finite z))) = .ok k := by
    simpa [impedance_to_kind] using h
  split at h'
  · unfold Resistance.known at h'
    split at h'
    · simp only [Except.map] at h'
      injection h' with h2
      subst h2
      rfl
    · simp [Except.map] at h'
  · rename_i him
    have hz0 : z ≠ 0 := by
      intro h0
      have him2 : (1 : ℚ) / 1000000000000 ≤ 0 := by
        simpa [h0, Cx.zero_def, epsTiny] using not_lt.mp him
      norm_num at him2
    injection h' with h2
    subst h2
    simp [ComponentKind.is_passive, ImpedanceResult.new_finite, hz0,
      ImpedanceResult.is_finite]

theorem comp?_mem (g : CircuitGraph) (i : Nat) (c : CircuitComponent)
    (h : g.comp? i = some c) : c ∈ g.components := by
  simp only [CircuitGraph.comp?, List.get?_eq_getElem?] at h
  exact List.getElem?_mem h

set_option maxHeartbeats 1600000 in
theorem applySeries_decrease (g : CircuitGraph) (i j : Nat)
    (ci cj : CircuitComponent) (z : Cx) (hI : InvI g) (hne : i ≠ j)
    (hci : g.comp? i = some ci) (hcj : g.comp? j = some cj)
    (hactI : ci.is_active = true) (hactJ : cj.is_active = true)
    (hpi : ci.kind.is_passive = true) (hpj : cj.kind.is_passive = true) :
    apCount (applySeries g [i, j] z).1 < apCount g ∧ InvI (applySeries g [i, j] z).1 := by
  have hapI : activePassiveAt g i = true := by
    unfold activePassiveAt; rw [hci]; simp [hactI, hpi]
  have hapJ : activePassiveAt g j = true := by
    unfold activePassiveAt; rw [hcj]; simp [hactJ, hpj]
  have hnodup : ([i, j] : List Nat).Nodup := by simp [hne]
  have hall : ∀ m ∈ ([i, j] : List Nat), activePassiveAt g m = true := by
    intro m hm
    rcases List.mem_cons.mp hm with rfl | hm2
    · exact hapI
    · rcases List.mem_cons.mp hm2 with rfl | hm3
      · exact hapJ
      · exact absurd hm3 (List.not_mem_nil m)
  have hcnt := foldl_deactivate_apCount [i, j] g hnodup hall
  have hInv1 := foldl_deactivate_InvI [i, j] g hI
  obtain ⟨hadj1, hnlen1, hclen1⟩ := foldl_deactivate_skeleton [i, j] g
  obtain ⟨⟨_, hrange, _, _⟩, _⟩ := hI
  have hri := hrange ci (comp?_mem g i ci hci)
  have hrj := hrange cj (comp?_mem g j cj hcj)
  simp only [applySeries, List.getD_cons_zero, List.getD_cons_succ, hci, hcj,
    Option.getD_some]
  cases himp : impedance_to_kind (ImpedanceResult.Finite z) with
  | error e =>
    simp only []
    constructor
    · simp only [List.length_cons, List.length_nil] at hcnt
      omega
    · exact hInv1
  | ok kind =>
    have hpk := impedance_to_kind_ok_passive z kind himp
    have houter := seriesOuter_mem ci cj
    have hp1 : (seriesOuter ci cj).1 < ([i, j].foldl deactivateComp g).nodes.length := by
      rw [hnlen1]
      rcases houter.1 with h1 | h1 <;> rw [h1] <;> [exact hri.1; exact hri.2]
    have hp2 : (seriesOuter ci cj).2 < ([i, j].foldl deactivateComp g).nodes.length := by
      rw [hnlen1]
      rcases houter.2 with h1 | h1 <;> rw [h1] <;> [exact hrj.1; exact hrj.2]
    have hadd := addComp_apCount ([i, j].foldl deactivateComp g) "EQ" kind (seriesOuter ci cj)
    have haddI := addComp_InvI ([i, j].foldl deactivateComp g) "EQ" kind (seriesOuter ci cj)
      hp1 hp2 hInv1
    rcases hsplit : ([i, j].foldl deactivateComp g).add_component "EQ" kind (seriesOuter ci cj)
      with ⟨g2, idx⟩
    rw [hsplit] at hadd haddI
    simp only [hsplit]
    constructor
    · simp only [List.length_cons, List.length_nil] at hcnt
      simp only [] at hadd
      rw [hadd, hpk]
      simp only [if_true]
      omega
    · exact haddI

set_option maxHeartbeats 1600000 in
theorem applyParallel_decrease (g : CircuitGraph) (members : List Nat) (z : Cx)
    (hI : InvI g) (hlen2 : 2 ≤ members.length) (hnodup : members.Nodup)
    (hall : ∀ m ∈ members, activePassiveAt g m = true) :
    apCount (applyParallel g members z).1 < apCount g ∧
    InvI (applyParallel g members z).1 := by
  have hcnt := foldl_deactivate_apCount members g hnodup hall
  have hInv1 := foldl_deactivate_InvI members g hI
  obtain ⟨hadj1, hnlen1, hclen1⟩ := foldl_deactivate_skeleton members g
  cases members with
  | nil => simp at hlen2
  | cons m0 rest =>
    have hap0 : activePassiveAt g m0 = true := hall m0 (List.mem_cons_self m0 rest)
    have hc0 : ∃ c0, g.comp? m0 = some c0 ∧ c0.is_active = true ∧
        c0.kind.is_passive = true := by
      unfold activePassiveAt at hap0
      cases hc : g.comp? m0 with
      | none => rw [hc] at hap0; simp at hap0
      | some c0 =>
        rw [hc] at hap0
        simp only [Bool.and_eq_true] at hap0
        exact ⟨c0, rfl, hap0.1, hap0.2⟩
    obtain ⟨c0, hc0eq, hact0, hpass0⟩ := hc0
    obtain ⟨⟨_, hrange, _, _⟩, _⟩ := hI
    have hr0 := hrange c0 (comp?_mem g m0 c0 hc0eq)
    simp only [applyParallel, List.getD_cons_zero, hc0eq, Option.getD_some]
    cases himp : impedance_to_kind (ImpedanceResult.Finite z) with
    | error e =>
      simp only []
      constructor
      · simp only [List.length_cons] at hcnt
        omega
      · exact hInv1
    | ok kind =>
      have hpk := impedance_to_kind_ok_passive z kind himp
      have hp1 : c0.nodes.1 < ((m0 :: rest).foldl deactivateComp g).nodes.length := by
        rw [hnlen1]; exact hr0.1
      have hp2 : c0.nodes.2 < ((m0 :: rest).foldl deactivateComp g).nodes.length := by
        rw [hnlen1]; exact hr0.2
      have hadd := addComp_apCount ((m0 :: rest).foldl deactivateComp g) "EQ" kind c0.nodes
      have haddI := addComp_InvI ((m0 :: rest).foldl deactivateComp g) "EQ" kind c0.nodes
        hp1 hp2 hInv1
      rcases hsplit : ((m0 :: rest).foldl deactivateComp g).add_component "EQ" kind c0.nodes
        with ⟨g2, idx⟩
      rw [hsplit] at hadd haddI
      simp only [hsplit]
      constructor
      · simp only [] at hadd
        have hle : apCount g2 ≤ apCount ((m0 :: rest).foldl deactivateComp g) + 1 := by
          rw [hadd]
          split <;> omega
        have hlen3 : 2 ≤ (m0 :: rest).length := hlen2
        omega
      · exact haddI

theorem activePassive_apCount_pos (g : CircuitGraph) (i : Nat)
    (h : activePassiveAt g i = true) : 0 < apCount g := by
  unfold activePassiveAt at h
  cases hc : g.comp? i with
  | none => rw [hc] at h; simp at h
  | some c =>
    rw [hc] at h
    have hmem := comp?_mem g i c hc
    have hmf : c ∈ g.components.filter (fun c => c.is_active && c.kind.is_passive) :=
      List.mem_filter.mpr ⟨hmem, h⟩
    unfold apCount
    exact List.length_pos.mpr (List.ne_nil_of_mem hmf)

theorem isSeriesPivot_apCount_pos (g : CircuitGraph) (n : Nat)
    (h : isSeriesPivot g n = true) : 0 < apCount g := by
  simp only [isSeriesPivot, Bool.and_eq_true] at h
  obtain ⟨_, h2⟩ := h
  cases hcon : g.connections_at n with
  | nil => rw [hcon] at h2; simp at h2
  | cons a u =>
    cases u with
    | nil => rw [hcon] at h2; simp at h2
    | cons b u2 =>
      cases u2 with
      | cons x u3 => rw [hcon] at h2; simp at h2
      | nil =>
        obtain ⟨ca, hca, hactA⟩ := mem_connections_spec g n a (by rw [hcon]; simp)
        rw [hcon] at h2
        simp only [] at h2
        rw [hca] at h2
        cases hcb : g.comp? b with
        | none =>
          rw [hcb] at h2; simp at h2
        | some cb =>
          rw [hcb] at h2
          simp only [Bool.and_eq_true] at h2
          refine activePassive_apCount_pos g a ?_
          unfold activePassiveAt
          rw [hca]
          simp [hactA, h2.1.1.1]

theorem apCount_zero_no_series (g : CircuitGraph) (h : apCount g = 0) :
    find_series_reduction g = none := by
  unfold find_series_reduction
  rw [findSeriesAux_eq_none]
  intro m _ _
  rw [seriesCheckAt_eq_pivot]
  by_cases hp : isSeriesPivot g m = true
  · have := isSeriesPivot_apCount_pos g m hp
    omega
  · simp only [Bool.not_eq_true] at hp
    simp [hp]

theorem apCount_zero_no_parallel (g : CircuitGraph) (h : apCount g = 0) :
    find_parallel_reduction g = none := by
  cases hfp : find_parallel_reduction g with
  | none => rfl
  | some s =>
    obtain ⟨members, z, _, hlen2, _, hall⟩ := find_parallel_some_spec g s hfp
    have hpos : 0 < members.length := by omega
    obtain ⟨m, hm⟩ := List.exists_mem_of_length_pos hpos
    have := activePassive_apCount_pos g m (hall m hm)
    omega

theorem found_step_decrease (g : CircuitGraph) (hI : InvI g) (s : ReductionStep)
    (h : find_series_reduction g = some s ∨ find_parallel_reduction g = some s) :
    apCount (apply_reduction g s).1 < apCount g ∧ InvI (apply_reduction g s).1 := by
  rcases h with h | h
  · obtain ⟨i, j, ci, cj, rfl, hne, hci, hcj, hA, hB, hpi, hpj⟩ :=
      find_series_some_spec g s hI h
    simpa [apply_reduction] using
      applySeries_decrease g i j ci cj _ hI hne hci hcj hA hB hpi hpj
  · obtain ⟨members, z, rfl, hlen2, hnodup, hall⟩ := find_parallel_some_spec g s h
    simpa [apply_reduction] using
      applyParallel_decrease g members z hI hlen2 hnodup hall

theorem reduceLoop_length (fuel : Nat) : ∀ g, InvI g →
    (reduceLoop g fuel).1.length ≤ apCount g := by
  induction fuel with
  | zero => intro g _; simp [reduceLoop]
  | succ fuel ih =>
    intro g hI
    unfold reduceLoop
    cases hs : find_series_reduction g with
    | some step =>
      obtain ⟨hdec, hI2⟩ := found_step_decrease g hI step (Or.inl hs)
      rcases happly : apply_reduction g step with ⟨g1, step1⟩
      rw [happly] at hdec hI2
      simp only [happly]
      rcases hloop : reduceLoop g1 fuel with ⟨steps, g2⟩
      simp only [hloop]
      have hlen := ih g1 hI2
      rw [hloop] at hlen
      simp only [List.length_cons]
      simp only [] at hlen hdec
      omega
    | none =>
      cases hp : find_parallel_reduction g with
      | some step =>
        obtain ⟨hdec, hI2⟩ := found_step_decrease g hI step (Or.inr hp)
        rcases happly : apply_reduction g step with ⟨g1, step1⟩
        rw [happly] at hdec hI2
        simp only [happly]
        rcases hloop : reduceLoop g1 fuel with ⟨steps, g2⟩
        simp only [hloop]
        have hlen := ih g1 hI2
        rw [hloop] at hlen
        simp only [List.length_cons]
        simp only [] at hlen hdec
        omega
      | none => simp

theorem reduceLoop_stable : ∀ k g fuel, InvI g → apCount g ≤ k → k ≤ fuel →
    reduceLoop g fuel = reduceLoop g k := by
  intro k
  induction k with
  | zero =>
    intro g fuel hI h0 _
    have hz : apCount g = 0 := by omega
    have hs := apCount_zero_no_series g hz
    have hp := apCount_zero_no_parallel g hz
    cases fuel with
    | zero => rfl
    | succ m => simp [reduceLoop, hs, hp]
  | succ k ih =>
    intro g fuel hI hk hf
    cases fuel with
    | zero => omega
    | succ m =>
      unfold reduceLoop
      cases hs : find_series_reduction g with
      | some step =>
        obtain ⟨hdec, hI2⟩ := found_step_decrease g hI step (Or.inl hs)
        rcases happly : apply_reduction g step with ⟨g1, step1⟩
        rw [happly] at hdec hI2
        simp only [] at hdec hI2
        have hrec : reduceLoop g1 m = reduceLoop g1 k :=
          ih g1 m hI2 (by omega) (by omega)
        simp only [happly, hrec]
      | none =>
        cases hp : find_parallel_reduction g with
        | some step =>
          obtain ⟨hdec, hI2⟩ := found_step_decrease g hI step (Or.inr hp)
          rcases happly : apply_reduction g step with ⟨g1, step1⟩
          rw [happly] at hdec hI2
          simp only [] at hdec hI2
          have hrec : reduceLoop g1 m = reduceLoop g1 k :=
            ih g1 m hI2 (by omega) (by omega)
          simp only [happly, hrec]
        | none => rfl

/-- C3: for every input graph satisfying the spec's graph invariants
(`InvR`: consistent adjacency, endpoints in range, no active self-loops)
and every ω, `reduce` terminates — the fuel-indexed loop is stationary once
the fuel reaches the initial active-passive component count — the number
of applied steps is at most that initial count, and every applied series
or parallel step strictly decreases the active-passive count (stated for
every state satisfying the reducer's loop invariant `InvI`). -/
theorem C3_reduce_terminates (g : CircuitGraph) (ω : AngularFrequency) (hInv : InvR g) :
    (∀ f₁ f₂, apCount g ≤ f₁ → apCount g ≤ f₂ → reduce g ω f₁ = reduce g ω f₂) ∧
    (∀ f, (reduce g ω f).1.length ≤ apCount g) ∧
    (∀ g2 : CircuitGraph, InvI g2 → ∀ s,
      find_series_reduction g2 = some s ∨ find_parallel_reduction g2 = some s →
      apCount (apply_reduction g2 s).1 < apCount g2) := by
  have hI0 : InvI (g.cache_impedances ω) := cache_InvI g ω hInv
  have hap0 : apCount (g.cache_impedances ω) = apCount g := cache_apCount g ω
  refine ⟨?_, ?_, ?_⟩
  · intro f₁ f₂ h1 h2
    unfold reduce
    rw [reduceLoop_stable (apCount g) _ f₁ hI0 (le_of_eq hap0) h1,
        reduceLoop_stable (apCount g) _ f₂ hI0 (le_of_eq hap0) h2]
  · intro f
    unfold reduce
    calc (reduceLoop (g.cache_impedances ω) f).1.length
        ≤ apCount (g.cache_impedances ω) := reduceLoop_length f _ hI0
      _ = apCount g := hap0
  · intro g2 hIh s hfind
    exact (found_step_decrease g2 hIh s hfind).1

/-- Witness for C3 on the grounded chain `gGnd` (two active passive
components): the run is already stationary at fuel 2, and the step log is
bounded by the initial active-passive count. -/
theorem C3_reduce_terminates_witness :
    reduce gGnd omega100 2 = reduce gGnd omega100 9 ∧
    (reduce gGnd omega100 9).1.length ≤ apCount gGnd :=
  ⟨(C3_reduce_terminates gGnd omega100 (by with_unfolding_all decide)).1 2 9
      (by with_unfolding_all decide) (by with_unfolding_all decide),
   (C3_reduce_terminates gGnd omega100 (by with_unfolding_all decide)).2.1 9⟩
